import Mathlib

/-!
# Verification of the word_solver indexing core (`words.py`)

A shallow embedding of the word-index program: a generic index keyed by a
normalisation function, with four strategies (plain, anagram, crossword,
codeword).  Strings are modelled as `List Char`; Python's insertion-ordered
`dict` is modelled as an association list whose operations mirror the source
(`lookup` takes the first matching key, updating edits the first matching
entry in place, and a fresh key is appended at the end, which preserves the
dict's key-insertion iteration order).  `str.lower` is modelled per character
with `Char.toLower` (the ASCII case, which is all the program's own alphabet
uses).  The one partial operation in the source, the indexed access `w[i]`
inside `codeword.search`, is modelled in `Except Unit` so that an IndexError
is an explicit `.error ()` value.
-/

set_option autoImplicit false

namespace WordSolver

/-- Strings as lists of characters. -/
abbrev Str := List Char

/-- `LETTERS = 'abcdefghijklmnopqrstuvwxyz'` from the source. -/
def lettersList : Str := "abcdefghijklmnopqrstuvwxyz".toList

/-- The whitespace characters recognised by Python's default `str.strip` /
`str.split` (ASCII range). -/
def isSpc (c : Char) : Bool :=
  c = ' ' || c = '\t' || c = '\n' || c = '\x0d' || c = '\x0b' || c = '\x0c'

/-- Python `str.lower`, per character (ASCII). -/
def pyLower (s : Str) : Str := s.map Char.toLower

/-- Python `str.strip`: drop leading and trailing whitespace. -/
def pyStrip (s : Str) : Str :=
  ((s.dropWhile isSpc).reverse.dropWhile isSpc).reverse

/-- Helper for `pySplit`: accumulates the current token (reversed). -/
def pySplitAux : Str → Str → List Str
  | [], acc => if acc.isEmpty then [] else [acc.reverse]
  | c :: rest, acc =>
    if isSpc c then
      if acc.isEmpty then pySplitAux rest []
      else acc.reverse :: pySplitAux rest []
    else pySplitAux rest (c :: acc)

/-- Python `str.split()` with no argument: split on whitespace runs,
discarding empty tokens. -/
def pySplit (s : Str) : List Str := pySplitAux s []

/-- The word index: Python's `word_index` dict, as an insertion-ordered
association list from keys to buckets of original words. -/
abbrev Idx (κ : Type) := List (κ × List Str)

/-- Dict membership / item access: the bucket stored under `k`, if any. -/
def lookupIdx {κ : Type} [DecidableEq κ] : Idx κ → κ → Option (List Str)
  | [], _ => none
  | (k', b) :: rest, k => if k' = k then some b else lookupIdx rest k

/-- `word_index[norm].append(word)` when the key exists, otherwise
`word_index[norm] = [word]` (a fresh dict key goes to the end of the
iteration order). -/
def insertWord {κ : Type} [DecidableEq κ] : Idx κ → κ → Str → Idx κ
  | [], k, w => [(k, [w])]
  | (k', b) :: rest, k, w =>
    if k' = k then (k', b ++ [w]) :: rest
    else (k', b) :: insertWord rest k w

/-- `words.add_word`: normalise the word once and file it under that key. -/
def addWord {κ : Type} [DecidableEq κ] (norm : Str → κ) (d : Idx κ) (w : Str) :
    Idx κ :=
  insertWord d (norm w) w

/-- Build an index by adding a list of words in order. -/
def buildIdx {κ : Type} [DecidableEq κ] (norm : Str → κ) (ws : List Str) :
    Idx κ :=
  ws.foldl (addWord norm) []

/-- `words.normalise`: `word.lower().strip()`. -/
def plainNormalise (w : Str) : Str := pyStrip (pyLower w)

/-- `words.search`: exact-key lookup of the normalised query; a present
bucket is returned as a list, an absent key yields Python `None`, modelled
as `Option.none`. -/
def searchRes {κ : Type} [DecidableEq κ] (norm : Str → κ) (d : Idx κ)
    (q : Str) : Option (List Str) :=
  lookupIdx d (norm q)

/-- `anagram.normalise`: the sorted list of the plain-normalised letters
(Python builds `tuple(sorted(letters))`). -/
def anagramNormalise (w : Str) : Str :=
  List.insertionSort (fun a b => a ≤ b) (plainNormalise w)

/-- The regex text built by `crossword.search`: each lowercased query
character that is in `LETTERS` stands for itself, anything else becomes
the single-character wildcard `.`. -/
def cwPattern (q : Str) : Str :=
  (pyLower q).map (fun c => if lettersList.contains c then c else '.')

/-- `re.fullmatch` for the restricted patterns `cwPattern` produces (only
literal characters and `.`; a regex `.` matches any character except a
newline). -/
def reFullmatch : Str → Str → Bool
  | [], [] => true
  | p :: ps, c :: cs =>
    (if p = '.' then decide (c ≠ '\n') else decide (p = c)) && reFullmatch ps cs
  | _, _ => false

/-- `crossword.search`: scan every index entry, keep the first word of each
bucket whose key fully matches the pattern.  The hits list is always
returned, so the Python value is always a list, never `None`. -/
def crosswordSearch (d : Idx Str) (q : Str) : Option (List Str) :=
  some (d.filterMap (fun e =>
    if reFullmatch (cwPattern q) e.1 then e.2.head? else none))

/-- The `letters_seen` dict of `codeword.normalise`. -/
def seenLookup : List (Char × Nat) → Char → Option Nat
  | [], _ => none
  | (c, n) :: rest, d => if c = d then some n else seenLookup rest d

/-- The loop of `codeword.normalise`: assign each first-seen character the
next unused number, reusing the number on repeats. -/
def codeAux : List (Char × Nat) → Nat → Str → List Nat
  | _, _, [] => []
  | seen, next, c :: rest =>
    match seenLookup seen c with
    | some n => n :: codeAux seen next rest
    | none => next :: codeAux ((c, next) :: seen) (next + 1) rest

/-- `codeword.normalise`: the structural code of the plain-normalised word,
starting from an empty `letters_seen` and `next_letter = 1`. -/
def codewordNormalise (w : Str) : List Nat :=
  codeAux [] 1 (plainNormalise w)

/-- The inner loop of `codeword.search` over one candidate `w`: walk the raw
query; a query character in `LETTERS` (lowercase only, as in the source)
must agree case-insensitively with the candidate's character at the same
position, anything else is skipped.  Returns the `failed` flag; accessing a
position past the candidate's end is Python's IndexError, `.error ()`. -/
def litRun : Str → Str → Except Unit Bool
  | [], _ => .ok false
  | qc :: qs, ws =>
    if lettersList.contains qc then
      match ws with
      | [] => .error ()
      | wc :: ws' =>
        if qc.toLower ≠ wc.toLower then .ok true else litRun qs ws'
    else
      match ws with
      | [] => litRun qs []
      | _ :: ws' => litRun qs ws'

/-- A candidate survives the literal check (the loop finished with
`failed = False`). -/
def litPass (q w : Str) : Bool :=
  match litRun q w with
  | .ok false => true
  | _ => false

/-- The filtering loop of `codeword.search` over the bucket; an IndexError
inside any check aborts the whole search. -/
def filterPoss (q : Str) : List Str → Except Unit (List Str)
  | [] => .ok []
  | w :: rest =>
    match litRun q w with
    | .error e => .error e
    | .ok true => filterPoss q rest
    | .ok false =>
      match filterPoss q rest with
      | .error e => .error e
      | .ok ms => .ok (w :: ms)

/-- `codeword.search`: `None` when the query's structural code is not an
index key; otherwise the bucket filtered by the literal check (possibly
empty). -/
def codewordSearch (d : Idx (List Nat)) (q : Str) :
    Except Unit (Option (List Str)) :=
  match lookupIdx d (codewordNormalise q) with
  | none => .ok none
  | some poss =>
    match filterPoss q poss with
    | .error e => .error e
    | .ok ms => .ok (some ms)

/-- The diagnostics `load_words` prints for rejected lines, with the 1-based
line number and (where the source prints it) the stripped line text. -/
inductive Diag : Type
  | multiple (lineNo : Nat) (text : Str)
  | blank (lineNo : Nat)
  | nonletter (lineNo : Nat) (text : Str)
  deriving DecidableEq

/-- One iteration of the `load_words` loop.  State: index, inserted count,
1-based line counter, diagnostics so far. -/
def loadStep {κ : Type} [DecidableEq κ] (norm : Str → κ)
    (st : Idx κ × Nat × Nat × List Diag) (line : Str) :
    Idx κ × Nat × Nat × List Diag :=
  let d := st.1
  let count := st.2.1
  let ln := st.2.2.1
  let ds := st.2.2.2
  let w := pyStrip line
  if (pySplit w).length > 1 then
    (d, count, ln + 1, ds ++ [Diag.multiple ln w])
  else if w.isEmpty then
    (d, count, ln + 1, ds ++ [Diag.blank ln])
  else if (pyLower w).any (fun c => !lettersList.contains c) then
    (d, count, ln + 1, ds ++ [Diag.nonletter ln w])
  else
    (addWord norm d w, count + 1, ln + 1, ds)

/-- `words.load_words` over the file's lines: optionally reset the index,
then process every line; result is the final index, the inserted-word count
(the number the source prints as `Loaded N words`), and the diagnostics. -/
def loadWordsRun {κ : Type} [DecidableEq κ] (norm : Str → κ) (d0 : Idx κ)
    (reset : Bool) (lines : List Str) : Idx κ × Nat × List Diag :=
  let d := if reset then [] else d0
  let st := lines.foldl (loadStep norm) (d, 0, 1, [])
  (st.1, st.2.1, st.2.2.2)

/-- The Python value a method hands back to its caller: either an object
(the indexer itself) or a number. -/
inductive PyRet (κ : Type) : Type
  | obj (d : Idx κ)
  | num (n : Nat)
  deriving DecidableEq

/-- Whether a returned Python value is a number. -/
def PyRet.isNum {κ : Type} : PyRet κ → Bool
  | .obj _ => false
  | .num _ => true

/-- The value `load_words` actually returns (`return self`, line 152 of the
source): the indexer object carrying the updated index. -/
def loadWordsRet {κ : Type} [DecidableEq κ] (norm : Str → κ) (d0 : Idx κ)
    (reset : Bool) (lines : List Str) : PyRet κ :=
  .obj (loadWordsRun norm d0 reset lines).1

/-- A line's stripped text passes `load_words` validation: a single token,
non-empty, all characters in the 26-letter alphabet. -/
def validWord (w : Str) : Bool :=
  if (pySplit w).length > 1 then false
  else if w.isEmpty then false
  else if (pyLower w).any (fun c => !lettersList.contains c) then false
  else true

/-- Is `c` one of the 52 letters `A`–`Z`, `a`–`z` (as its lowercase form is
in the program's `LETTERS` alphabet)? -/
def isLet (c : Char) : Bool := lettersList.contains c.toLower

/-- Follows the spec's words for the crossword pattern: same length, and at
every position an alphabetic query character (of either case) must equal
the word's character case-insensitively, while any other query character
matches any single character. -/
def specCrosswordMatch : Str → Str → Bool
  | [], [] => true
  | a :: qs, b :: ws =>
    (if isLet a then decide (a.toLower = b.toLower) else true) &&
      specCrosswordMatch qs ws
  | _, _ => false

/-- Follows the claim's words for codeword matching: same length; each
alphabetic query character must equal the word's character (case-insensitive);
a repeated wildcard symbol forces equal word letters at all its occurrences;
distinct wildcard symbols impose no cross-constraint. -/
def specWildcardMatch (q w : Str) : Bool :=
  decide (q.length = w.length) &&
  (List.range q.length).all (fun i =>
    match q.get? i, w.get? i with
    | some a, some b =>
      (if isLet a then decide (a.toLower = b.toLower) else true) &&
      (List.range q.length).all (fun j =>
        match q.get? j, w.get? j with
        | some a2, some b2 =>
          if !isLet a && !isLet a2 && a = a2 then
            decide (b.toLower = b2.toLower)
          else true
        | _, _ => true)
    | _, _ => true)

/-! ## Index lemmas -/

theorem lookup_insertWord {κ : Type} [DecidableEq κ] (d : Idx κ) (k k' : κ)
    (w : Str) :
    lookupIdx (insertWord d k w) k' =
      if k' = k then some (((lookupIdx d k').getD []) ++ [w])
      else lookupIdx d k' := by
  induction d with
  | nil =>
    by_cases h : k' = k
    · subst h; simp [insertWord, lookupIdx]
    · have h2 : ¬ k = k' := fun hh => h hh.symm
      simp [insertWord, lookupIdx, h, h2]
  | cons hd rest ih =>
    obtain ⟨a, b⟩ := hd
    by_cases hak : a = k
    · subst hak
      by_cases hk : k' = a
      · subst hk; simp [insertWord, lookupIdx]
      · have h2 : ¬ a = k' := fun hh => hk hh.symm
        simp [insertWord, lookupIdx, hk, h2]
    · by_cases hak' : a = k'
      · subst hak'
        have h2 : ¬ a = k := hak
        have h3 : ¬ k = a := fun hh => hak hh.symm
        simp [insertWord, lookupIdx, h2, h3]
      · simp [insertWord, lookupIdx, hak, hak', ih]

theorem lookup_addWord {κ : Type} [DecidableEq κ] (norm : Str → κ)
    (d : Idx κ) (w : Str) (k : κ) :
    lookupIdx (addWord norm d w) k =
      if k = norm w then some (((lookupIdx d k).getD []) ++ [w])
      else lookupIdx d k :=
  lookup_insertWord d (norm w) k w

theorem lookup_foldl_addWord {κ : Type} [DecidableEq κ] (norm : Str → κ)
    (ws : List Str) (d : Idx κ) (k : κ) :
    lookupIdx (ws.foldl (addWord norm) d) k =
      match lookupIdx d k with
      | some b => some (b ++ ws.filter (fun v => decide (norm v = k)))
      | none =>
        if ws.any (fun v => decide (norm v = k)) then
          some (ws.filter (fun v => decide (norm v = k)))
        else none := by
  induction ws generalizing d with
  | nil => cases hd : lookupIdx d k <;> simp [hd]
  | cons v ws ih =>
    have hfold : (v :: ws).foldl (addWord norm) d
        = ws.foldl (addWord norm) (addWord norm d v) := rfl
    rw [hfold, ih, lookup_addWord]
    by_cases h : k = norm v
    · have h' : norm v = k := h.symm
      rw [if_pos h]
      cases hd : lookupIdx d k with
      | some b => simp [hd, List.filter_cons, h', List.append_assoc]
      | none => simp [hd, List.filter_cons, List.any_cons, h']
    · have h' : ¬ norm v = k := fun hh => h hh.symm
      rw [if_neg h]
      cases hd : lookupIdx d k with
      | some b => simp [hd, List.filter_cons, h']
      | none => simp [hd, List.filter_cons, List.any_cons, h']

theorem lookup_buildIdx {κ : Type} [DecidableEq κ] (norm : Str → κ)
    (ws : List Str) (k : κ) :
    lookupIdx (buildIdx norm ws) k =
      if ws.any (fun v => decide (norm v = k)) then
        some (ws.filter (fun v => decide (norm v = k)))
      else none := by
  have h := lookup_foldl_addWord norm ws [] k
  simpa [buildIdx, lookupIdx] using h

theorem lookup_append {κ : Type} [DecidableEq κ] (d1 d2 : Idx κ) (k : κ) :
    lookupIdx (d1 ++ d2) k =
      match lookupIdx d1 k with
      | some b => some b
      | none => lookupIdx d2 k := by
  induction d1 with
  | nil => simp [lookupIdx]
  | cons hd rest ih =>
    obtain ⟨a, b⟩ := hd
    by_cases h : a = k <;> simp [lookupIdx, h, ih]

theorem insertWord_absent {κ : Type} [DecidableEq κ] (d : Idx κ) (k : κ)
    (w : Str) (h : lookupIdx d k = none) :
    insertWord d k w = d ++ [(k, [w])] := by
  induction d with
  | nil => simp [insertWord]
  | cons hd rest ih =>
    obtain ⟨a, b⟩ := hd
    by_cases hak : a = k
    · simp [lookupIdx, hak] at h
    · simp only [lookupIdx, hak, if_false] at h
      simp [insertWord, hak, ih h]

theorem foldl_addWord_fresh {κ : Type} [DecidableEq κ] (norm : Str → κ)
    (ws : List Str) (d : Idx κ)
    (habs : ∀ w ∈ ws, lookupIdx d (norm w) = none)
    (hnd : (ws.map norm).Nodup) :
    ws.foldl (addWord norm) d = d ++ ws.map (fun w => (norm w, [w])) := by
  induction ws generalizing d with
  | nil => simp
  | cons v ws ih =>
    have hstep : addWord norm d v = d ++ [(norm v, [v])] :=
      insertWord_absent d (norm v) v (habs v (by simp))
    have hnd' : (ws.map norm).Nodup := (List.nodup_cons.mp hnd).2
    have hne : ∀ w ∈ ws, norm w ≠ norm v := by
      intro w hw heq
      exact (List.nodup_cons.mp hnd).1 (heq ▸ List.mem_map_of_mem norm hw)
    have habs' : ∀ w ∈ ws, lookupIdx (d ++ [(norm v, [v])]) (norm w) = none := by
      intro w hw
      rw [lookup_append, habs w (List.mem_cons_of_mem v hw)]
      have hvw : ¬ norm v = norm w := fun hh => hne w hw hh.symm
      simp [lookupIdx, hvw]
    calc (v :: ws).foldl (addWord norm) d
        = ws.foldl (addWord norm) (d ++ [(norm v, [v])]) := by
          simp [List.foldl_cons, hstep]
      _ = d ++ [(norm v, [v])] ++ ws.map (fun w => (norm w, [w])) :=
          ih (d ++ [(norm v, [v])]) habs' hnd'
      _ = d ++ (v :: ws).map (fun w => (norm w, [w])) := by simp

theorem buildIdx_nodup {κ : Type} [DecidableEq κ] (norm : Str → κ)
    (ws : List Str) (hnd : (ws.map norm).Nodup) :
    buildIdx norm ws = ws.map (fun w => (norm w, [w])) := by
  have h := foldl_addWord_fresh norm ws [] (fun w _ => rfl) hnd
  simpa [buildIdx] using h

/-! ## Character and string lemmas -/

theorem contains_letters_iff (c : Char) :
    lettersList.contains c = true ↔ c ∈ lettersList := by
  simp [List.contains]

theorem letters_not_spc : ∀ c ∈ lettersList, isSpc c = false := by decide

theorem letters_ne_dot : ∀ c ∈ lettersList, c ≠ '.' := by decide

theorem letters_ne_newline : ∀ c ∈ lettersList, c ≠ '\n' := by decide

theorem dropWhile_of_none {α : Type} (p : α → Bool) (l : List α)
    (h : ∀ c ∈ l, p c = false) : l.dropWhile p = l := by
  cases l with
  | nil => rfl
  | cons c l => simp [List.dropWhile_cons, h c (by simp)]

theorem pyStrip_of_no_spc (l : Str) (h : ∀ c ∈ l, isSpc c = false) :
    pyStrip l = l := by
  unfold pyStrip
  rw [dropWhile_of_none isSpc l h]
  rw [dropWhile_of_none isSpc l.reverse (fun c hc => h c (List.mem_reverse.mp hc))]
  exact List.reverse_reverse l

theorem length_pyStrip_le (l : Str) : (pyStrip l).length ≤ l.length := by
  unfold pyStrip
  calc ((l.dropWhile isSpc).reverse.dropWhile isSpc).reverse.length
      = ((l.dropWhile isSpc).reverse.dropWhile isSpc).length :=
        List.length_reverse _
    _ ≤ (l.dropWhile isSpc).reverse.length :=
        (List.dropWhile_sublist _).length_le
    _ = (l.dropWhile isSpc).length := List.length_reverse _
    _ ≤ l.length := (List.dropWhile_sublist _).length_le

theorem length_pyLower (l : Str) : (pyLower l).length = l.length :=
  List.length_map l Char.toLower

theorem plainNormalise_of_letters (w : Str) (hw : ∀ c ∈ w, isLet c = true) :
    plainNormalise w = pyLower w := by
  unfold plainNormalise
  refine pyStrip_of_no_spc (pyLower w) ?_
  intro c hc
  obtain ⟨a, ha, rfl⟩ := List.mem_map.mp hc
  have hlet : lettersList.contains a.toLower = true := hw a ha
  exact letters_not_spc a.toLower ((contains_letters_iff a.toLower).mp hlet)

/-! ## Crossword lemmas -/

theorem length_cwPattern (q : Str) : (cwPattern q).length = q.length := by
  simp [cwPattern, pyLower]

theorem mem_cwPattern (q : Str) (c : Char) (hc : c ∈ cwPattern q) :
    c ∈ lettersList ∨ c = '.' := by
  obtain ⟨a, _, rfl⟩ := List.mem_map.mp hc
  by_cases h : lettersList.contains a = true
  · exact Or.inl (by simp [h, (contains_letters_iff a).mp h])
  · simp only [h]
    right
    simp [h]

theorem reFullmatch_cwPattern (q w : Str)
    (hw : ∀ c ∈ w, isLet c = true) :
    reFullmatch (cwPattern q) (pyLower w) = specCrosswordMatch q w := by
  induction q generalizing w with
  | nil =>
    cases w with
    | nil => rfl
    | cons b ws => simp [cwPattern, pyLower, reFullmatch, specCrosswordMatch]
  | cons a qs ih =>
    cases w with
    | nil => simp [cwPattern, pyLower, reFullmatch, specCrosswordMatch]
    | cons b ws =>
      have hb : lettersList.contains b.toLower = true := hw b (by simp)
      have hbmem : b.toLower ∈ lettersList :=
        (contains_letters_iff b.toLower).mp hb
      have htail : reFullmatch (cwPattern qs) (pyLower ws)
          = specCrosswordMatch qs ws :=
        ih ws (fun c hc => hw c (List.mem_cons_of_mem b hc))
      have hpat : cwPattern (a :: qs)
          = (if lettersList.contains a.toLower then a.toLower else '.')
              :: cwPattern qs := by
        simp [cwPattern, pyLower]
      have hlow : pyLower (b :: ws) = b.toLower :: pyLower ws := rfl
      rw [hpat, hlow]
      by_cases hla : lettersList.contains a.toLower = true
      · have hmem : a.toLower ∈ lettersList :=
          (contains_letters_iff a.toLower).mp hla
        have hnd : a.toLower ≠ '.' := letters_ne_dot a.toLower hmem
        simp [reFullmatch, specCrosswordMatch, hla, hnd, isLet, htail, hmem]
      · have hnm : a.toLower ∉ lettersList :=
          fun hm => hla ((contains_letters_iff a.toLower).mpr hm)
        have hnl : b.toLower ≠ '\n' := letters_ne_newline b.toLower hbmem
        simp [reFullmatch, specCrosswordMatch, hla, isLet, hnl, htail, hnm]

theorem specCrosswordMatch_length (q w : Str)
    (h : specCrosswordMatch q w = true) : q.length = w.length := by
  induction q generalizing w with
  | nil => cases w with
    | nil => rfl
    | cons b ws => simp [specCrosswordMatch] at h
  | cons a qs ih =>
    cases w with
    | nil => simp [specCrosswordMatch] at h
    | cons b ws =>
      simp only [specCrosswordMatch, Bool.and_eq_true] at h
      simpa using ih ws h.2

theorem crosswordSearch_buildIdx (ws : List Str) (q : Str)
    (ha : ∀ w ∈ ws, ∀ c ∈ w, isLet c = true)
    (hnd : (ws.map plainNormalise).Nodup) :
    crosswordSearch (buildIdx plainNormalise ws) q
      = some (ws.filter (fun w => specCrosswordMatch q w)) := by
  rw [crosswordSearch, buildIdx_nodup plainNormalise ws hnd]
  congr 1
  induction ws with
  | nil => rfl
  | cons w ws ih =>
    have hw := ha w (by simp)
    have hmatch : reFullmatch (cwPattern q) (plainNormalise w)
        = specCrosswordMatch q w := by
      rw [plainNormalise_of_letters w hw, reFullmatch_cwPattern q w hw]
    have hnd2 : (List.map plainNormalise ws).Nodup := by
      rw [List.map_cons] at hnd
      exact (List.nodup_cons.mp hnd).2
    have ih' := ih (fun v hv => ha v (List.mem_cons_of_mem w hv)) hnd2
    simp only [List.map_cons, List.filterMap_cons, List.filter_cons, hmatch]
    cases hspec : specCrosswordMatch q w <;> simp [ih', hspec]

/-! ## Anagram lemmas -/

theorem insertionSort_eq_of_perm (x y : Str) (h : x.Perm y) :
    List.insertionSort (fun a b => a ≤ b) x
      = List.insertionSort (fun a b => a ≤ b) y :=
  List.eq_of_perm_of_sorted
    ((List.perm_insertionSort _ x).trans
      (h.trans (List.perm_insertionSort _ y).symm))
    (List.sorted_insertionSort _ x) (List.sorted_insertionSort _ y)

theorem anagramNormalise_eq_iff (v p : Str) :
    anagramNormalise v = anagramNormalise p
      ↔ (plainNormalise v).Perm (plainNormalise p) := by
  constructor
  · intro h
    have h1 := List.perm_insertionSort (fun a b : Char => a ≤ b)
      (plainNormalise v)
    have h2 := List.perm_insertionSort (fun a b : Char => a ≤ b)
      (plainNormalise p)
    rw [anagramNormalise, anagramNormalise] at h
    rw [← h] at h2
    exact h1.symm.trans h2
  · exact insertionSort_eq_of_perm _ _

/-! ## Codeword structural-code lemmas -/

/-- The final `letters_seen` state after `codeword.normalise` scans `l`. -/
def extendSeen : List (Char × Nat) → Nat → Str → List (Char × Nat) × Nat
  | seen, next, [] => (seen, next)
  | seen, next, c :: rest =>
    match seenLookup seen c with
    | some _ => extendSeen seen next rest
    | none => extendSeen ((c, next) :: seen) (next +  1) rest

theorem seenLookup_extend (l : Str) (seen : List (Char × Nat)) (next : Nat)
    (c : Char) (n : Nat) (h : seenLookup seen c = some n) :
    seenLookup (extendSeen seen next l).1 c = some n := by
  induction l generalizing seen next with
  | nil => exact h
  | cons d rest ih =>
    cases hd : seenLookup seen d with
    | some m =>
      simp only [extendSeen, hd]
      exact ih seen next h
    | none =>
      have hcd : ¬ d = c := by
        intro hh
        rw [hh, h] at hd
        cases hd
      have h' : seenLookup ((d, next) :: seen) c = some n := by
        simp [seenLookup, hcd, h]
      simp only [extendSeen, hd]
      exact ih ((d, next) :: seen) (next + 1) h'

theorem codeAux_eq_map (l : Str) (seen : List (Char × Nat)) (next : Nat) :
    codeAux seen next l
      = l.map (fun c => (seenLookup (extendSeen seen next l).1 c).getD 0) := by
  induction l generalizing seen next with
  | nil => rfl
  | cons c rest ih =>
    cases hc : seenLookup seen c with
    | some n =>
      have hfin := seenLookup_extend rest seen next c n hc
      simp only [codeAux, hc, extendSeen, List.map_cons]
      rw [hfin, ← ih seen next]
      rfl
    | none =>
      have hhead : seenLookup ((c, next) :: seen) c = some next := by
        simp [seenLookup]
      have hfin := seenLookup_extend rest ((c, next) :: seen) (next + 1) c
        next hhead
      simp only [codeAux, hc, extendSeen, List.map_cons]
      rw [hfin, ← ih ((c, next) :: seen) (next + 1)]
      rfl

theorem length_codeAux (l : Str) (seen : List (Char × Nat)) (next : Nat) :
    (codeAux seen next l).length = l.length := by
  rw [codeAux_eq_map]
  exact List.length_map l _

/-- Invariant of `letters_seen`: all assigned numbers are below
`next_letter`, and distinct characters hold distinct numbers. -/
def SeenInv (seen : List (Char × Nat)) (next : Nat) : Prop :=
  (∀ c n, seenLookup seen c = some n → n < next) ∧
  (∀ c d n, seenLookup seen c = some n → seenLookup seen d = some n → c = d)

theorem seenInv_extend (l : Str) (seen : List (Char × Nat)) (next : Nat)
    (h : SeenInv seen next) :
    SeenInv (extendSeen seen next l).1 (extendSeen seen next l).2 := by
  induction l generalizing seen next with
  | nil => exact h
  | cons c rest ih =>
    cases hc : seenLookup seen c with
    | some n =>
      simp only [extendSeen, hc]
      exact ih seen next h
    | none =>
      simp only [extendSeen, hc]
      refine ih ((c, next) :: seen) (next + 1) ⟨?_, ?_⟩
      · intro a m ha
        by_cases hca : c = a
        · subst hca
          simp [seenLookup] at ha
          omega
        · simp only [seenLookup, hca, if_false] at ha
          exact Nat.lt_trans (h.1 a m ha) (Nat.lt_succ_self next)
      · intro a b m ha hb
        by_cases hca : c = a <;> by_cases hcb : c = b
        · rw [← hca, ← hcb]
        · subst hca
          simp only [seenLookup, if_pos rfl] at ha
          simp only [seenLookup, hcb, if_false] at hb
          have hlt := h.1 b m hb
          have hm : next = m := by injection ha
          omega
        · subst hcb
          simp only [seenLookup, if_pos rfl] at hb
          simp only [seenLookup, hca, if_false] at ha
          have hlt := h.1 a m ha
          have hm : next = m := by injection hb
          omega
        · simp only [seenLookup, hca, hcb, if_false] at ha hb
          exact h.2 a b m ha hb

theorem seenLookup_extend_mem (c : Char) (l : Str) :
    ∀ (seen : List (Char × Nat)) (next : Nat), c ∈ l →
      ∃ n, seenLookup (extendSeen seen next l).1 c = some n := by
  induction l with
  | nil =>
    intro _ _ hc
    cases hc
  | cons d rest ih =>
    intro seen next hc
    cases hd : seenLookup seen d with
    | some m =>
      simp only [extendSeen, hd]
      rcases List.mem_cons.mp hc with h1 | h1
      · subst h1
        exact ⟨m, seenLookup_extend rest seen next c m hd⟩
      · exact ih seen next h1
    | none =>
      simp only [extendSeen, hd]
      rcases List.mem_cons.mp hc with h1 | h1
      · subst h1
        have hh : seenLookup ((c, next) :: seen) c = some next := by
          simp [seenLookup]
        exact ⟨next, seenLookup_extend rest ((c, next) :: seen) (next + 1)
          c next hh⟩
      · exact ih ((d, next) :: seen) (next + 1) h1

theorem codeList_get_iff (x : Str) (i j : Nat) :
    (codeAux [] 1 x).get? i = (codeAux [] 1 x).get? j
      ↔ x.get? i = x.get? j := by
  have hinv : SeenInv (extendSeen [] 1 x).1 (extendSeen [] 1 x).2 := by
    refine seenInv_extend x [] 1 ⟨?_, ?_⟩
    · intro c n h
      simp [seenLookup] at h
    · intro a b n ha
      simp [seenLookup] at ha
  rw [codeAux_eq_map x [] 1, List.get?_map, List.get?_map]
  cases hi : x.get? i with
  | none =>
    cases hj : x.get? j with
    | none => simp
    | some b => simp
  | some a =>
    cases hj : x.get? j with
    | none => simp
    | some b =>
      simp only [Option.map_some']
      constructor
      · intro h
        have h' : (seenLookup (extendSeen [] 1 x).1 a).getD 0
            = (seenLookup (extendSeen [] 1 x).1 b).getD 0 := by
          injection h
        obtain ⟨na, hna⟩ := seenLookup_extend_mem a x [] 1 (List.get?_mem hi)
        obtain ⟨nb, hnb⟩ := seenLookup_extend_mem b x [] 1 (List.get?_mem hj)
        rw [hna, hnb] at h'
        simp only [Option.getD_some] at h'
        subst h'
        have hab := hinv.2 a b na hna hnb
        rw [hab]
      · intro h
        have hab : a = b := by injection h
        rw [hab]

theorem codewordNormalise_pattern (a b : Str)
    (h : codewordNormalise a = codewordNormalise b) (i j : Nat) :
    (plainNormalise a).get? i = (plainNormalise a).get? j
      ↔ (plainNormalise b).get? i = (plainNormalise b).get? j := by
  rw [← codeList_get_iff (plainNormalise a) i j]
  rw [← codeList_get_iff (plainNormalise b) i j]
  unfold codewordNormalise at h
  rw [h]

/-! ## Codeword search lemmas -/

theorem litRun_ok (q w : Str) (h : q.length ≤ w.length) :
    ∃ b, litRun q w = .ok b := by
  induction q generalizing w with
  | nil => exact ⟨false, rfl⟩
  | cons qc qs ih =>
    cases w with
    | nil => simp at h
    | cons wc ws =>
      have h' : qs.length ≤ ws.length := by simpa using h
      by_cases hl : lettersList.contains qc = true
      · have hm : qc ∈ lettersList := (contains_letters_iff qc).mp hl
        by_cases hne : qc.toLower = wc.toLower
        · obtain ⟨b, hb⟩ := ih ws h'
          exact ⟨b, by simp [litRun, hm, hne, hb]⟩
        · exact ⟨true, by simp [litRun, hm, hne]⟩
      · have hm : qc ∉ lettersList :=
          fun hx => hl ((contains_letters_iff qc).mpr hx)
        obtain ⟨b, hb⟩ := ih ws h'
        exact ⟨b, by simp [litRun, hm, hb]⟩

theorem filterPoss_ok (q : Str) (l : List Str)
    (h : ∀ w ∈ l, ∃ b, litRun q w = .ok b) :
    filterPoss q l = .ok (l.filter (fun w => litPass q w)) := by
  induction l with
  | nil => rfl
  | cons w rest ih =>
    obtain ⟨b, hb⟩ := h w (by simp)
    have ih' := ih (fun v hv => h v (List.mem_cons_of_mem w hv))
    cases b with
    | true => simp [filterPoss, hb, ih', List.filter_cons, litPass]
    | false => simp [filterPoss, hb, ih', List.filter_cons, litPass]

theorem filterPoss_subset (q : Str) (l r : List Str)
    (h : filterPoss q l = .ok r) : ∀ v ∈ r, v ∈ l := by
  induction l generalizing r with
  | nil =>
    cases h
    intro v hv
    exact hv
  | cons w rest ih =>
    intro v hv
    unfold filterPoss at h
    cases hb : litRun q w with
    | error e => rw [hb] at h; cases h
    | ok b =>
      rw [hb] at h
      cases b with
      | true => exact List.mem_cons_of_mem w (ih r h v hv)
      | false =>
        cases hf : filterPoss q rest with
        | error e => rw [hf] at h; cases h
        | ok ms =>
          rw [hf] at h
          have hr : w :: ms = r := by injection h
          rw [← hr] at hv
          rcases List.mem_cons.mp hv with h1 | h1
          · exact h1 ▸ List.mem_cons_self w rest
          · exact List.mem_cons_of_mem w (ih ms hf v h1)

theorem length_codewordNormalise (w : Str) :
    (codewordNormalise w).length = (plainNormalise w).length :=
  length_codeAux (plainNormalise w) [] 1

theorem length_plainNormalise_le (w : Str) :
    (plainNormalise w).length ≤ w.length := by
  calc (plainNormalise w).length ≤ (pyLower w).length :=
        length_pyStrip_le (pyLower w)
    _ = w.length := length_pyLower w

theorem codewordSearch_buildIdx (ws : List Str) (q : Str)
    (hq : pyStrip (pyLower q) = pyLower q) :
    codewordSearch (buildIdx codewordNormalise ws) q =
      .ok (if ws.any
            (fun v => decide (codewordNormalise v = codewordNormalise q)) then
        some ((ws.filter
            (fun v => decide (codewordNormalise v = codewordNormalise q))).filter
          (fun v => litPass q v))
      else none) := by
  unfold codewordSearch
  rw [lookup_buildIdx]
  by_cases hany : ws.any
      (fun v => decide (codewordNormalise v = codewordNormalise q)) = true
  · rw [if_pos hany, if_pos hany]
    have hqlen : (plainNormalise q).length = q.length := by
      unfold plainNormalise
      rw [hq]
      exact length_pyLower q
    have hok : ∀ w ∈ ws.filter
        (fun v => decide (codewordNormalise v = codewordNormalise q)),
        ∃ b, litRun q w = .ok b := by
      intro w hwmem
      have hcode : codewordNormalise w = codewordNormalise q :=
        of_decide_eq_true (List.mem_filter.mp hwmem).2
      have h1 : (codewordNormalise q).length = q.length := by
        rw [length_codewordNormalise, hqlen]
      have h2 := length_codewordNormalise w
      rw [hcode, h1] at h2
      have h3 := length_plainNormalise_le w
      exact litRun_ok q w (by omega)
    have hfp := filterPoss_ok q _ hok
    simp only [hfp]
  · rw [if_neg hany, if_neg hany]

theorem codewordSearch_mem (ws : List Str) (q w : Str) (ms : List Str)
    (hs : codewordSearch (buildIdx codewordNormalise ws) q = .ok (some ms))
    (hw : w ∈ ms) : codewordNormalise w = codewordNormalise q := by
  unfold codewordSearch at hs
  rw [lookup_buildIdx] at hs
  by_cases hany : ws.any
      (fun v => decide (codewordNormalise v = codewordNormalise q)) = true
  · rw [if_pos hany] at hs
    cases hf : filterPoss q (ws.filter
        (fun v => decide (codewordNormalise v = codewordNormalise q))) with
    | error e =>
      simp only [hf] at hs
      cases hs
    | ok ms' =>
      simp only [hf] at hs
      have hms : some ms' = some ms := by injection hs
      have hms' : ms' = ms := by injection hms
      subst hms'
      have hv := filterPoss_subset q _ ms' hf w hw
      exact of_decide_eq_true (List.mem_filter.mp hv).2
  · rw [if_neg hany] at hs
    simp at hs

theorem searchRes_buildIdx_none_iff {κ : Type} [DecidableEq κ]
    (norm : Str → κ) (ws : List Str) (q : Str) :
    searchRes norm (buildIdx norm ws) q = none
      ↔ ∀ v ∈ ws, ¬ norm v = norm q := by
  unfold searchRes
  rw [lookup_buildIdx]
  by_cases h : ws.any (fun v => decide (norm v = norm q)) = true
  · rw [if_pos h]
    refine iff_of_false (by simp) ?_
    intro hall
    obtain ⟨v, hv, hdec⟩ := List.any_eq_true.mp h
    exact hall v hv (of_decide_eq_true hdec)
  · rw [if_neg h]
    refine iff_of_true rfl ?_
    intro v hv hnv
    exact h (List.any_eq_true.mpr ⟨v, hv, decide_eq_true hnv⟩)

theorem codewordSearch_buildIdx_none_iff (ws : List Str) (q : Str) :
    codewordSearch (buildIdx codewordNormalise ws) q = .ok none
      ↔ ∀ v ∈ ws, ¬ codewordNormalise v = codewordNormalise q := by
  unfold codewordSearch
  rw [lookup_buildIdx]
  by_cases h : ws.any
      (fun v => decide (codewordNormalise v = codewordNormalise q)) = true
  · rw [if_pos h]
    refine iff_of_false ?_ ?_
    · intro hh
      cases hf : filterPoss q (ws.filter
          (fun v => decide (codewordNormalise v = codewordNormalise q))) with
      | error e =>
        simp only [hf] at hh
        cases hh
      | ok ms =>
        simp only [hf] at hh
        simp at hh
    · intro hall
      obtain ⟨v, hv, hdec⟩ := List.any_eq_true.mp h
      exact hall v hv (of_decide_eq_true hdec)
  · rw [if_neg h]
    refine iff_of_true rfl ?_
    intro v hv hnv
    exact h (List.any_eq_true.mpr ⟨v, hv, decide_eq_true hnv⟩)

/-! ## load_words lemmas -/

theorem loadStep_valid {κ : Type} [DecidableEq κ] (norm : Str → κ)
    (st : Idx κ × Nat × Nat × List Diag) (line : Str)
    (h : validWord (pyStrip line) = true) :
    loadStep norm st line
      = (addWord norm st.1 (pyStrip line), st.2.1 + 1, st.2.2.1 + 1,
          st.2.2.2) := by
  unfold validWord at h
  by_cases h1 : (pySplit (pyStrip line)).length > 1
  · rw [if_pos h1] at h; cases h
  · rw [if_neg h1] at h
    by_cases h2 : (pyStrip line).isEmpty = true
    · rw [if_pos h2] at h; cases h
    · rw [if_neg h2] at h
      by_cases h3 : (pyLower (pyStrip line)).any
          (fun c => !lettersList.contains c) = true
      · rw [if_pos h3] at h; cases h
      · unfold loadStep
        rw [if_neg h1, if_neg h2, if_neg h3]

theorem loadStep_invalid {κ : Type} [DecidableEq κ] (norm : Str → κ)
    (st : Idx κ × Nat × Nat × List Diag) (line : Str)
    (h : validWord (pyStrip line) = false) :
    ∃ dg, loadStep norm st line
      = (st.1, st.2.1, st.2.2.1 + 1, st.2.2.2 ++ [dg]) := by
  unfold validWord at h
  by_cases h1 : (pySplit (pyStrip line)).length > 1
  · refine ⟨Diag.multiple st.2.2.1 (pyStrip line), ?_⟩
    unfold loadStep
    rw [if_pos h1]
  · rw [if_neg h1] at h
    by_cases h2 : (pyStrip line).isEmpty = true
    · refine ⟨Diag.blank st.2.2.1, ?_⟩
      unfold loadStep
      rw [if_neg h1, if_pos h2]
    · rw [if_neg h2] at h
      by_cases h3 : (pyLower (pyStrip line)).any
          (fun c => !lettersList.contains c) = true
      · refine ⟨Diag.nonletter st.2.2.1 (pyStrip line), ?_⟩
        unfold loadStep
        rw [if_neg h1, if_neg h2, if_pos h3]
      · rw [if_neg h3] at h
        cases h

theorem loadWords_foldl {κ : Type} [DecidableEq κ] (norm : Str → κ)
    (lines : List Str) :
    ∀ (d : Idx κ) (count ln : Nat) (ds : List Diag),
      (lines.foldl (loadStep norm) (d, count, ln, ds)).1
          = ((lines.map pyStrip).filter validWord).foldl (addWord norm) d ∧
      (lines.foldl (loadStep norm) (d, count, ln, ds)).2.1
          = count + ((lines.map pyStrip).filter validWord).length ∧
      (lines.foldl (loadStep norm) (d, count, ln, ds)).2.2.2.length
          = ds.length
            + ((lines.map pyStrip).filter (fun w => !validWord w)).length := by
  induction lines with
  | nil => intro d count ln ds; refine ⟨rfl, by simp, by simp⟩
  | cons line rest ih =>
    intro d count ln ds
    cases hv : validWord (pyStrip line) with
    | true =>
      have hstep := loadStep_valid norm (d, count, ln, ds) line hv
      have hfold : (line :: rest).foldl (loadStep norm) (d, count, ln, ds)
          = rest.foldl (loadStep norm)
              (addWord norm d (pyStrip line), count + 1, ln + 1, ds) := by
        rw [List.foldl_cons, hstep]
      obtain ⟨ih1, ih2, ih3⟩ := ih (addWord norm d (pyStrip line))
        (count + 1) (ln + 1) ds
      rw [hfold]
      refine ⟨?_, ?_, ?_⟩
      · rw [ih1]
        simp [List.filter_cons, hv]
      · rw [ih2]
        simp [List.filter_cons, hv]
        omega
      · rw [ih3]
        simp [List.filter_cons, hv]
    | false =>
      obtain ⟨dg, hstep⟩ := loadStep_invalid norm (d, count, ln, ds) line hv
      have hfold : (line :: rest).foldl (loadStep norm) (d, count, ln, ds)
          = rest.foldl (loadStep norm) (d, count, ln + 1, ds ++ [dg]) := by
        rw [List.foldl_cons, hstep]
      obtain ⟨ih1, ih2, ih3⟩ := ih d count (ln + 1) (ds ++ [dg])
      rw [hfold]
      refine ⟨?_, ?_, ?_⟩
      · rw [ih1]
        simp [List.filter_cons, hv]
      · rw [ih2]
        simp [List.filter_cons, hv]
      · rw [ih3]
        simp [List.filter_cons, hv]
        omega

theorem loadWordsRun_spec {κ : Type} [DecidableEq κ] (norm : Str → κ)
    (d0 : Idx κ) (reset : Bool) (lines : List Str) :
    (loadWordsRun norm d0 reset lines).1
        = ((lines.map pyStrip).filter validWord).foldl (addWord norm)
            (if reset then [] else d0) ∧
    (loadWordsRun norm d0 reset lines).2.1
        = ((lines.map pyStrip).filter validWord).length ∧
    (loadWordsRun norm d0 reset lines).2.2.length
        = ((lines.map pyStrip).filter (fun w => !validWord w)).length := by
  obtain ⟨h1, h2, h3⟩ := loadWords_foldl norm lines
    (if reset then [] else d0) 0 1 []
  exact ⟨h1, by simpa using h2, by simpa using h3⟩

theorem validWord_false_iff (w : Str) :
    validWord w = false
      ↔ ((pySplit w).length > 1 ∨ w = []
          ∨ ∃ c ∈ pyLower w, lettersList.contains c = false) := by
  unfold validWord
  by_cases h1 : (pySplit w).length > 1
  · rw [if_pos h1]
    exact iff_of_true rfl (Or.inl h1)
  · rw [if_neg h1]
    by_cases h2 : w.isEmpty = true
    · rw [if_pos h2]
      exact iff_of_true rfl (Or.inr (Or.inl (by simpa using h2)))
    · rw [if_neg h2]
      by_cases h3 : (pyLower w).any (fun c => !lettersList.contains c) = true
      · rw [if_pos h3]
        obtain ⟨c, hc, hcl⟩ := List.any_eq_true.mp h3
        exact iff_of_true rfl
          (Or.inr (Or.inr ⟨c, hc, by simpa using hcl⟩))
      · rw [if_neg h3]
        refine iff_of_false (by simp) ?_
        rintro (hh | hh | hh)
        · exact h1 hh
        · exact h2 (by simp [hh])
        · obtain ⟨c, hc, hcl⟩ := hh
          exact h3 (List.any_eq_true.mpr ⟨c, hc, by simpa using hcl⟩)

/-! ## Claim theorems -/

/-- Claim C1, counterexample to the statement as frozen: with both `HELLO`
and `hello` indexed (they share the plain key `hello`), the query `hello`
produces a pattern that fully matches the indexed word `hello`, yet the
search returns only `["HELLO"]` — the first word of the matching bucket —
so "a word is returned iff the pattern matches the entire word" fails for
the indexed word `hello`. -/
theorem C1_counterexample :
    specCrosswordMatch "hello".toList "hello".toList = true ∧
    "hello".toList ∈ ["HELLO".toList, "hello".toList] ∧
    crosswordSearch (buildIdx plainNormalise ["HELLO".toList, "hello".toList])
      "hello".toList = some ["HELLO".toList] ∧
    "hello".toList ∉ ["HELLO".toList] :=
  ⟨by decide, by decide, by decide, by decide⟩

/-- Claim C1 (amended): when the indexed words consist of letters and have
pairwise-distinct plain normalisations (so every bucket is a singleton),
crossword search returns exactly the indexed words the query's pattern
fully matches — each alphabetic query character must equal the word's
letter at that position case-insensitively, every other query character
matches any single letter — and a word whose length differs from the
query's never matches.  In general only the first word of each matching
bucket is returned. -/
theorem C1_theorem (ws : List Str) (q : Str)
    (ha : ∀ w ∈ ws, ∀ c ∈ w, isLet c = true)
    (hnd : (ws.map plainNormalise).Nodup) :
    crosswordSearch (buildIdx plainNormalise ws) q
      = some (ws.filter (fun w => specCrosswordMatch q w)) ∧
    ∀ w ∈ ws, w.length ≠ q.length → specCrosswordMatch q w = false := by
  refine ⟨crosswordSearch_buildIdx ws q ha hnd, ?_⟩
  intro w _ hlen
  cases hsp : specCrosswordMatch q w with
  | false => rfl
  | true => exact absurd (specCrosswordMatch_length q w hsp).symm hlen

/-- Claim C1 witness: the four COGENT words with the query `__g_nt` give
back exactly the four words. -/
theorem C1_witness :
    crosswordSearch
        (buildIdx plainNormalise
          ["COGENT".toList, "NUGENT".toList, "REGENT".toList,
            "URGENT".toList])
        "__g_nt".toList
      = some ["COGENT".toList, "NUGENT".toList, "REGENT".toList,
          "URGENT".toList] := by
  have h := C1_theorem
    ["COGENT".toList, "NUGENT".toList, "REGENT".toList, "URGENT".toList]
    "__g_nt".toList (by decide) (by decide)
  rw [h.1]
  decide

/-- Claim C2, counterexample to the statement as frozen: the claim
quantifies over every query, but for the whitespace-padded query `" abc"`
with `xab` indexed, the query's structural code `(1,2,3)` is present as a
key, yet the literal check reads the candidate past its end
(`w[3]` on the 3-character `xab`, line 358 of the source) and raises an
uncaught IndexError — the search returns neither the `None` signal nor any
list. -/
theorem C2_counterexample :
    lookupIdx (buildIdx codewordNormalise ["xab".toList])
        (codewordNormalise " abc".toList) = some ["xab".toList] ∧
    codewordSearch (buildIdx codewordNormalise ["xab".toList]) " abc".toList
      = .error () ∧
    ((.error () : Except Unit (Option (List Str))) ≠ .ok none) ∧
    ((.error () : Except Unit (Option (List Str))) ≠ .ok (some [])) :=
  ⟨by decide, by rfl, fun h => Except.noConfusion h,
    fun h => Except.noConfusion h⟩

/-- Claim C2 (amended): for a codeword query whose lowered form has no
surrounding whitespace, the search returns `None` exactly when the query's
structural code is not an index key; when the code is a key, it returns
the (present, possibly empty) bucket filtered by the literal check — and
the two outcomes are distinguishable values.  A whitespace-padded query
whose code is a present key can instead raise IndexError, so the frozen
claim's dichotomy does not cover every query. -/
theorem C2_theorem (ws : List Str) (q : Str)
    (hq : pyStrip (pyLower q) = pyLower q) :
    codewordSearch (buildIdx codewordNormalise ws) q =
      .ok (if ws.any
            (fun v => decide (codewordNormalise v = codewordNormalise q)) then
        some ((ws.filter
            (fun v => decide (codewordNormalise v = codewordNormalise q))).filter
          (fun v => litPass q v))
      else none) ∧
    (Except.ok (some ([] : List Str))
      ≠ (Except.ok none : Except Unit (Option (List Str)))) := by
  refine ⟨codewordSearch_buildIdx ws q hq, ?_⟩
  intro hh
  have := Except.ok.inj hh
  cases this

/-- Claim C2 witness: with `ABC` indexed, the query `xbc` has the present
code `(1,2,3)` but zero literal survivors, giving the empty-but-present
list, while `zzz` has the absent code `(1,1,1)`, giving `None`. -/
theorem C2_witness :
    pyStrip (pyLower "xbc".toList) = pyLower "xbc".toList ∧
    codewordSearch (buildIdx codewordNormalise ["ABC".toList]) "xbc".toList
      = .ok (some []) ∧
    codewordSearch (buildIdx codewordNormalise ["ABC".toList]) "zzz".toList
      = .ok none := by
  refine ⟨by decide, ?_, ?_⟩
  · have h := C2_theorem ["ABC".toList] "xbc".toList (by decide)
    rw [h.1]
    rfl
  · have h := C2_theorem ["ABC".toList] "zzz".toList (by decide)
    rw [h.1]
    rfl

/-- Claim C3: a permutation `p` of an indexed all-letter word `w` has the
same anagram key as `w`, and searching `p` returns exactly the indexed
words whose lowercased-and-trimmed letter multiset equals that of `p`,
including `w` itself. -/
theorem C3_theorem (ws : List Str) (w p : Str) (hw : w ∈ ws)
    (ha : ∀ c ∈ w, isLet c = true) (hp : p.Perm w) :
    anagramNormalise p = anagramNormalise w ∧
    searchRes anagramNormalise (buildIdx anagramNormalise ws) p
      = some (ws.filter
          (fun v => decide (anagramNormalise v = anagramNormalise p))) ∧
    w ∈ ws.filter
        (fun v => decide (anagramNormalise v = anagramNormalise p)) ∧
    ∀ v : Str, v ∈ ws.filter
        (fun v => decide (anagramNormalise v = anagramNormalise p))
      ↔ (v ∈ ws ∧ (plainNormalise v).Perm (plainNormalise p)) := by
  have hpa : ∀ c ∈ p, isLet c = true := fun c hc => ha c (hp.subset hc)
  have hplain_p : plainNormalise p = pyLower p := plainNormalise_of_letters p hpa
  have hplain_w : plainNormalise w = pyLower w := plainNormalise_of_letters w ha
  have hperm : (plainNormalise p).Perm (plainNormalise w) := by
    rw [hplain_p, hplain_w]
    exact hp.map Char.toLower
  have hnorm : anagramNormalise p = anagramNormalise w :=
    insertionSort_eq_of_perm _ _ hperm
  have hwany : ws.any
      (fun v => decide (anagramNormalise v = anagramNormalise p)) = true :=
    List.any_eq_true.mpr ⟨w, hw, decide_eq_true hnorm.symm⟩
  refine ⟨hnorm, ?_, ?_, ?_⟩
  · unfold searchRes
    rw [lookup_buildIdx, if_pos hwany]
  · exact List.mem_filter.mpr ⟨hw, decide_eq_true hnorm.symm⟩
  · intro v
    rw [List.mem_filter]
    constructor
    · rintro ⟨hv, hdec⟩
      exact ⟨hv, (anagramNormalise_eq_iff v p).mp (of_decide_eq_true hdec)⟩
    · rintro ⟨hv, hpm⟩
      exact ⟨hv, decide_eq_true ((anagramNormalise_eq_iff v p).mpr hpm)⟩

/-- Claim C3 witness: `TSOP` is a permutation of the indexed `POST`; its
anagram key equals `POST`'s, and searching it returns `POST` and `STOP`
(and not `CAT`). -/
theorem C3_witness :
    anagramNormalise "TSOP".toList = anagramNormalise "POST".toList ∧
    searchRes anagramNormalise
        (buildIdx anagramNormalise
          ["POST".toList, "STOP".toList, "CAT".toList]) "TSOP".toList
      = some ["POST".toList, "STOP".toList] := by
  have h := C3_theorem ["POST".toList, "STOP".toList, "CAT".toList]
    "POST".toList "TSOP".toList (by decide) (by decide) (by decide)
  refine ⟨h.1, ?_⟩
  rw [h.2.1]
  decide

/-- Claim C4 evaluated at the failing input: the query `Cat` shares the
structural code `(1,2,3)` with the indexed word `BAT`; position 0 of the
query is the alphabetic letter `C` (uppercase) and `BAT`'s letter there
differs from it case-insensitively, yet the code keeps `BAT`, because
`word[i] in LETTERS` (line 356 of the source) only recognises lowercase
letters and so treats `C` as a wildcard. -/
theorem C4_code_eval :
    codewordSearch (buildIdx codewordNormalise ["BAT".toList]) "Cat".toList
      = .ok (some ["BAT".toList]) ∧
    isLet 'C' = true ∧
    'C'.toLower ≠ 'B'.toLower :=
  ⟨by rfl, by decide, by decide⟩

/-- Claim C5, counterexample to the statement as frozen: under the claim's
semantics the query `12` (two distinct wildcard symbols, no
cross-constraint) matches the indexed word `AA`, but the code computes the
query's structural code `(1,2)`, which differs from `AA`'s code `(1,1)`,
so the search returns `None`: distinct wildcard symbols do force distinct
letters. -/
theorem C5_counterexample :
    specWildcardMatch "12".toList "AA".toList = true ∧
    codewordSearch (buildIdx codewordNormalise ["AA".toList]) "12".toList
      = .ok none :=
  ⟨by decide, by rfl⟩

/-- Claim C5 (amended): a repeated wildcard symbol forces equal letters at
all its occurrences, and moreover any two distinct query symbols (wildcard
or letter) force distinct letters: every word returned by codeword search
has, after plain normalisation, equal characters at positions `i`, `j`
exactly where the normalised query has equal characters. -/
theorem C5_theorem (ws : List Str) (q w : Str) (ms : List Str)
    (hs : codewordSearch (buildIdx codewordNormalise ws) q = .ok (some ms))
    (hw : w ∈ ms) (i j : Nat) :
    (plainNormalise q).get? i = (plainNormalise q).get? j
      ↔ (plainNormalise w).get? i = (plainNormalise w).get? j := by
  have hcode : codewordNormalise q = codewordNormalise w :=
    (codewordSearch_mem ws q w ms hs hw).symm
  exact codewordNormalise_pattern q w hcode i j

/-- Claim C5 witness: `BAREFOOT` is returned for `1234566t`, and the
repeated symbol `6` at positions 5 and 6 corresponds to the equal letters
`O`, `O` there. -/
theorem C5_witness :
    codewordSearch (buildIdx codewordNormalise ["BAREFOOT".toList])
      "1234566t".toList = .ok (some ["BAREFOOT".toList]) ∧
    ((plainNormalise "1234566t".toList).get? 5
        = (plainNormalise "1234566t".toList).get? 6
      ↔ (plainNormalise "BAREFOOT".toList).get? 5
        = (plainNormalise "BAREFOOT".toList).get? 6) :=
  ⟨by rfl,
    C5_theorem ["BAREFOOT".toList] "1234566t".toList "BAREFOOT".toList
      ["BAREFOOT".toList] (by rfl) (by decide) 5 6⟩

/-- Claim C6, counterexample to the statement as frozen: a crossword search
that matches nothing returns the empty list, not the `None` signal the
claim asserts for every non-codeword mode — `crossword.search` always
returns its `hits` list. -/
theorem C6_counterexample :
    crosswordSearch (buildIdx plainNormalise ["COGENT".toList]) "zz".toList
      = some [] ∧
    (some ([] : List Str) ≠ (none : Option (List Str))) :=
  ⟨by decide, by decide⟩

/-- Claim C6 (amended): plain and anagram searches yield `None` exactly
when no indexed word shares the query's key; crossword search always
yields a present list (empty on no match); codeword search yields `None`
exactly when the query's structural code is absent from the index. -/
theorem C6_theorem (ws : List Str) (q : Str) (d : Idx Str) :
    (searchRes plainNormalise (buildIdx plainNormalise ws) q = none
      ↔ ∀ v ∈ ws, ¬ plainNormalise v = plainNormalise q) ∧
    (searchRes anagramNormalise (buildIdx anagramNormalise ws) q = none
      ↔ ∀ v ∈ ws, ¬ anagramNormalise v = anagramNormalise q) ∧
    (crosswordSearch d q).isSome = true ∧
    (codewordSearch (buildIdx codewordNormalise ws) q = .ok none
      ↔ ∀ v ∈ ws, ¬ codewordNormalise v = codewordNormalise q) :=
  ⟨searchRes_buildIdx_none_iff plainNormalise ws q,
    searchRes_buildIdx_none_iff anagramNormalise ws q,
    rfl,
    codewordSearch_buildIdx_none_iff ws q⟩

/-- Claim C7: during loading, a line is rejected (one diagnostic, loading
continues) exactly when its trimmed text splits into more than one token,
or is empty, or contains a character outside the 26 letters; every other
line is inserted; the reported count equals the number of inserted lines;
and the claim's concrete file — a blank line, a multi-word line, and a
digit-containing line among two good lines — inserts exactly the two good
lines and produces three pairwise-distinct diagnostics. -/
theorem C7_theorem {κ : Type} [DecidableEq κ] (norm : Str → κ)
    (d0 : Idx κ) (reset : Bool) (lines : List Str) :
    (loadWordsRun norm d0 reset lines).2.1
        = ((lines.map pyStrip).filter validWord).length ∧
    (loadWordsRun norm d0 reset lines).2.2.length
        = ((lines.map pyStrip).filter (fun w => !validWord w)).length ∧
    (loadWordsRun norm d0 reset lines).1
        = ((lines.map pyStrip).filter validWord).foldl (addWord norm)
            (if reset then [] else d0) ∧
    (∀ w : Str, validWord w = false
      ↔ ((pySplit w).length > 1 ∨ w = []
          ∨ ∃ c ∈ pyLower w, lettersList.contains c = false)) ∧
    loadWordsRun plainNormalise [] true
        ["HELLO".toList, "".toList, "two words".toList, "abc1".toList,
          "World".toList]
      = ([("hello".toList, ["HELLO".toList]),
          ("world".toList, ["World".toList])], 2,
          [Diag.blank 2, Diag.multiple 3 "two words".toList,
            Diag.nonletter 4 "abc1".toList]) ∧
    (Diag.blank 2 ≠ Diag.multiple 3 "two words".toList ∧
      Diag.blank 2 ≠ Diag.nonletter 4 "abc1".toList ∧
      Diag.multiple 3 "two words".toList
        ≠ Diag.nonletter 4 "abc1".toList) := by
  obtain ⟨h1, h2, h3⟩ := loadWordsRun_spec norm d0 reset lines
  exact ⟨h2, h3, h1, validWord_false_iff, by decide, by decide⟩

/-- Claim C8, counterexample to the statement as frozen: `load_words`
returns `self` (the indexer object), not the inserted-word count — on a
one-line file the returned value is the object holding the updated index
and is not a number. -/
theorem C8_counterexample :
    loadWordsRet plainNormalise [] true ["HELLO".toList]
      = PyRet.obj [("hello".toList, ["HELLO".toList])] ∧
    (loadWordsRet plainNormalise [] true ["HELLO".toList]).isNum = false :=
  ⟨by decide, by decide⟩

/-- Claim C8 (amended): `load_words` returns the indexer itself, whose
index holds every valid line inserted in order; the inserted-word count is
only printed (`Loaded N words`), not returned, and it equals the number of
valid lines. -/
theorem C8_theorem {κ : Type} [DecidableEq κ] (norm : Str → κ)
    (d0 : Idx κ) (reset : Bool) (lines : List Str) :
    loadWordsRet norm d0 reset lines
      = PyRet.obj (((lines.map pyStrip).filter validWord).foldl
          (addWord norm) (if reset then [] else d0)) ∧
    (loadWordsRet norm d0 reset lines).isNum = false ∧
    (loadWordsRun norm d0 reset lines).2.1
        = ((lines.map pyStrip).filter validWord).length := by
  obtain ⟨h1, h2, _⟩ := loadWordsRun_spec norm d0 reset lines
  refine ⟨?_, ?_, h2⟩
  · unfold loadWordsRet
    rw [h1]
  · rfl

/-- Claim C9: one insertion touches exactly one bucket — the one keyed by
the normalisation of the word, computed once — appending the word at the
end (creating the bucket if absent, never deduplicating), and every other
key's bucket is unchanged. -/
theorem C9_theorem {κ : Type} [DecidableEq κ] (norm : Str → κ) (d : Idx κ)
    (w : Str) (k : κ) :
    lookupIdx (addWord norm d w) k =
      if k = norm w then some (((lookupIdx d k).getD []) ++ [w])
      else lookupIdx d k :=
  lookup_addWord norm d w k

/-- Claim C10: the crossword pattern is built from the lowercased query by
keeping lowercase letters and replacing every other character by `.`, so
every pattern character is a lowercase letter or a dot (no live regex
metacharacter survives), the pattern has the query's length, and the
search returns a present list for any index and query. -/
theorem C10_theorem (q : Str) (d : Idx Str) (c : Char)
    (hc : c ∈ cwPattern q) :
    (c ∈ lettersList ∨ c = '.') ∧
    (crosswordSearch d q).isSome = true ∧
    (cwPattern q).length = q.length :=
  ⟨mem_cwPattern q c hc, rfl, length_cwPattern q⟩

/-- Claim C10 witness: the query `a?*` yields the pattern `a..`; the dot
is in the pattern, is not a letter, and the search on the empty index
still returns a list. -/
theorem C10_witness :
    '.' ∈ cwPattern "a?*".toList ∧
    (('.' ∈ lettersList ∨ '.' = '.') ∧
      (crosswordSearch [] "a?*".toList).isSome = true ∧
      (cwPattern "a?*".toList).length = "a?*".toList.length) :=
  ⟨by decide, C10_theorem "a?*".toList [] '.' (by decide)⟩

end WordSolver
